import Mathlib

/-!
Shallow embedding of the gemini-cli-sdk core (session history store, tool
invocation, sub-agent bridge, agent turn loop) and proofs of the spec claims.

Source files embedded: src/session.ts, src/tool.ts, src/subagent.ts,
src/agent.ts. JavaScript values flowing through the history reconstruction
are modelled by the inductive `JSVal`; filesystem and network effects are
modelled by passing the read data explicitly.
-/

namespace GeminiSdk

/-! ## JavaScript value universe for persisted message content

`normalizeParts` in src/session.ts receives `unknown` content: in practice a
string, an array, a genai `Part` object, or null/undefined. We model that
universe. `textPart s` is the object `\x7btext: s\x7d`; `funcCallPart` is the
object `\x7bfunctionCall: \x7bid, name, args\x7d\x7d` (args kept opaque as a string);
`obj` is any other object. `nullv` covers both null and undefined; note that
the empty string is falsy in JavaScript, like null. -/

inductive JSVal where
  | nullv : JSVal
  | str : String → JSVal
  | arr : List JSVal → JSVal
  | obj : Nat → JSVal
  | textPart : String → JSVal
  | funcCallPart : String → String → String → JSVal

/-- JavaScript truthiness of a `JSVal` (`if (!content) ...`): null, undefined
and the empty string are falsy; every array and object is truthy. -/
def JSVal.truthy : JSVal → Bool
  | .nullv => false
  | .str s => !(s == "")
  | _ => true

/-- Whether the value is a JavaScript string (`typeof content === "string"`). -/
def JSVal.isStr : JSVal → Bool
  | .str _ => true
  | _ => false

/-- Whether the value is null/undefined (`tc.result != null` is its negation). -/
def JSVal.isNull : JSVal → Bool
  | .nullv => true
  | _ => false

/-- src/session.ts `normalizeParts`: falsy content yields no parts, a string
becomes one text part, an array maps strings to text parts and passes other
elements through (the `item as Part` cast), anything else is a single part. -/
def normalizeParts (content : JSVal) : List JSVal :=
  if !content.truthy then []
  else match content with
    | .str s => [.textPart s]
    | .arr items =>
        items.map (fun item =>
          match item with
          | .str s => .textPart s
          | x => x)
    | x => [x]

/-- One recorded tool call on a persisted model message
(`msg.toolCalls[i]`): id, name, opaque args, and a result that may be
null/undefined (`JSVal.nullv`). -/
structure ToolCallRecord where
  id : String
  name : String
  args : String
  result : JSVal

/-- A persisted `MessageRecord` (the fields src/session.ts reads): its type
discriminant, content, and for model messages an optional tool-call list.
`info`, `error` and `warning` records carry content that is never read. -/
inductive MessageRecord where
  | user : JSVal → MessageRecord
  | gemini : JSVal → Option (List ToolCallRecord) → MessageRecord
  | info : JSVal → MessageRecord
  | error : JSVal → MessageRecord
  | warning : JSVal → MessageRecord

inductive Role where
  | user : Role
  | model : Role
deriving DecidableEq

/-- A genai `Content` turn: role plus parts. -/
structure Content where
  role : Role
  parts : List JSVal

/-- The function-call `Part` pushed for a recorded tool call:
`\x7bfunctionCall: \x7bid: tc.id, name: tc.name, args: tc.args\x7d\x7d`. -/
def toolCallPart (tc : ToolCallRecord) : JSVal :=
  .funcCallPart tc.id tc.name tc.args

/-- The function-response parts a model message contributes
(src/session.ts lines 95-104): every tool call with a non-null result
contributes its normalized result parts, in tool-call order. -/
def responsePartsOf (tcs : List ToolCallRecord) : List JSVal :=
  (tcs.map (fun tc => if !tc.result.isNull then normalizeParts tc.result else [])).flatten

/-- The turns one persisted message contributes to the reconstructed history
(the body of the loop in `messageRecordsToHistory`, src/session.ts 69-107). -/
def msgToContents (msg : MessageRecord) : List Content :=
  match msg with
  | .info _ => []
  | .error _ => []
  | .warning _ => []
  | .user c =>
      let parts := normalizeParts c
      if parts.isEmpty then [] else [⟨.user, parts⟩]
  | .gemini c tcs =>
      let modelParts := normalizeParts c ++
        (match tcs with
         | none => []
         | some l => l.map toolCallPart)
      let modelTurn : List Content :=
        if modelParts.isEmpty then [] else [⟨.model, modelParts⟩]
      let respTurn : List Content :=
        if (match tcs with
            | none => false
            | some l => l.any (fun tc => !tc.result.isNull)) then
          let responseParts := responsePartsOf (tcs.getD [])
          if responseParts.isEmpty then [] else [⟨.user, responseParts⟩]
        else []
      modelTurn ++ respTurn

/-- src/session.ts `messageRecordsToHistory`: fold over the persisted
messages, appending the turns each one contributes. -/
def messageRecordsToHistory (messages : List MessageRecord) : List Content :=
  messages.foldl (fun history msg => history ++ msgToContents msg) []

theorem foldl_append_contents (messages : List MessageRecord)
    (acc : List Content) :
    messages.foldl (fun history msg => history ++ msgToContents msg) acc
      = acc ++ messages.foldl (fun history msg => history ++ msgToContents msg) [] := by
  induction messages generalizing acc with
  | nil => simp
  | cons m ms ih =>
      simp only [List.foldl_cons, List.nil_append]
      rw [ih (acc ++ msgToContents m), ih (msgToContents m)]
      simp

theorem messageRecordsToHistory_cons (m : MessageRecord) (ms : List MessageRecord) :
    messageRecordsToHistory (m :: ms) = msgToContents m ++ messageRecordsToHistory ms := by
  unfold messageRecordsToHistory
  simp only [List.foldl_cons, List.nil_append]
  exact foldl_append_contents ms (msgToContents m)

theorem messageRecordsToHistory_eq_flatMap (messages : List MessageRecord) :
    messageRecordsToHistory messages = messages.flatMap msgToContents := by
  induction messages with
  | nil => rfl
  | cons m ms ih => rw [messageRecordsToHistory_cons, ih]; rfl

/-- Every turn a single message contributes has a non-empty parts list:
each push in the source is guarded by a length check. -/
theorem parts_ne_nil_of_mem_msgToContents (m : MessageRecord) (c : Content)
    (hc : c ∈ msgToContents m) : c.parts ≠ [] := by
  cases m with
  | info _ => simp [msgToContents] at hc
  | error _ => simp [msgToContents] at hc
  | warning _ => simp [msgToContents] at hc
  | user content =>
      simp only [msgToContents] at hc
      split at hc
      · simp at hc
      · next h =>
          simp only [List.mem_singleton] at hc
          subst hc
          simpa [List.isEmpty_iff] using h
  | gemini content tcs =>
      simp only [msgToContents, List.mem_append] at hc
      rcases hc with hc | hc
      · split at hc
        · simp at hc
        · next h =>
            simp only [List.mem_singleton] at hc
            subst hc
            simpa [List.isEmpty_iff] using h
      · split at hc
        · split at hc
          · simp at hc
          · next h =>
              simp only [List.mem_singleton] at hc
              subst hc
              simpa [List.isEmpty_iff] using h
        · simp at hc

/-- `normalizeParts` never emits a bare JavaScript string as a part. -/
theorem normalizeParts_no_str (content : JSVal) :
    ∀ p ∈ normalizeParts content, p.isStr = false := by
  intro p hp
  cases content with
  | nullv => simp [normalizeParts, JSVal.truthy] at hp
  | str s =>
      simp only [normalizeParts, JSVal.truthy] at hp
      split at hp
      · simp at hp
      · simp only [List.mem_singleton] at hp
        subst hp; rfl
  | arr items =>
      have hp2 : p ∈ items.map (fun item =>
          match item with
          | .str s => JSVal.textPart s
          | x => x) := hp
      simp only [List.mem_map] at hp2
      obtain ⟨item, _, hitem⟩ := hp2
      cases item <;> (subst hitem; rfl)
  | obj n =>
      have hp2 : p ∈ ([JSVal.obj n] : List JSVal) := hp
      simp only [List.mem_singleton] at hp2
      subst hp2; rfl
  | textPart s =>
      have hp2 : p ∈ ([JSVal.textPart s] : List JSVal) := hp
      simp only [List.mem_singleton] at hp2
      subst hp2; rfl
  | funcCallPart i n a =>
      have hp2 : p ∈ ([JSVal.funcCallPart i n a] : List JSVal) := hp
      simp only [List.mem_singleton] at hp2
      subst hp2; rfl

/-- The aggregated function-response parts are all `normalizeParts` outputs,
so none is a bare string. -/
theorem responsePartsOf_no_str (tcs : List ToolCallRecord) :
    ∀ p ∈ responsePartsOf tcs, p.isStr = false := by
  intro p hp
  simp only [responsePartsOf, List.mem_flatten, List.mem_map] at hp
  obtain ⟨l, ⟨tc, _, htc⟩, hpl⟩ := hp
  subst htc
  split at hpl
  · exact normalizeParts_no_str _ p hpl
  · simp at hpl

/-- No turn in the reconstructed history carries a bare string part. -/
theorem parts_no_str_of_mem_msgToContents (m : MessageRecord) (c : Content)
    (hc : c ∈ msgToContents m) : ∀ p ∈ c.parts, p.isStr = false := by
  intro p hp
  cases m with
  | info _ => simp [msgToContents] at hc
  | error _ => simp [msgToContents] at hc
  | warning _ => simp [msgToContents] at hc
  | user content =>
      simp only [msgToContents] at hc
      split at hc
      · simp at hc
      · simp only [List.mem_singleton] at hc
        subst hc
        exact normalizeParts_no_str content p hp
  | gemini content tcs =>
      simp only [msgToContents, List.mem_append] at hc
      rcases hc with hc | hc
      · split at hc
        · simp at hc
        · simp only [List.mem_singleton] at hc
          subst hc
          simp only [List.mem_append] at hp
          rcases hp with hp | hp
          · exact normalizeParts_no_str content p hp
          · cases tcs with
            | none => simp at hp
            | some l =>
                simp only [List.mem_map] at hp
                obtain ⟨tc, _, htc⟩ := hp
                subst htc; rfl
      · split at hc
        · split at hc
          · simp at hc
          · simp only [List.mem_singleton] at hc
            subst hc
            exact responsePartsOf_no_str _ p hp
        · simp at hc

/-- C10: every turn emitted by `messageRecordsToHistory` has a non-empty
parts array; a user entry whose content normalizes to zero parts produces no
user turn, and a model entry with no content parts and no tool calls produces
no model turn. -/
theorem history_turn_parts_nonempty :
    (∀ (msgs : List MessageRecord) (c : Content),
       c ∈ messageRecordsToHistory msgs → c.parts ≠ []) ∧
    (∀ uc : JSVal, normalizeParts uc = [] →
       messageRecordsToHistory [.user uc] = []) ∧
    (∀ (gc : JSVal) (tcs : Option (List ToolCallRecord)),
       (tcs = none ∨ tcs = some []) → normalizeParts gc = [] →
       messageRecordsToHistory [.gemini gc tcs] = []) := by
  refine ⟨?_, ?_, ?_⟩
  · intro msgs c hc
    rw [messageRecordsToHistory_eq_flatMap] at hc
    simp only [List.mem_flatMap] at hc
    obtain ⟨m, _, hm⟩ := hc
    exact parts_ne_nil_of_mem_msgToContents m c hm
  · intro uc h
    rw [messageRecordsToHistory_cons]
    simp [msgToContents, h]
    rfl
  · intro gc tcs htcs h
    rw [messageRecordsToHistory_cons]
    rcases htcs with rfl | rfl <;> simp [msgToContents, h] <;> rfl

theorem history_turn_parts_nonempty_witness :
    (⟨Role.user, [JSVal.textPart "x"]⟩ : Content).parts ≠ [] ∧
    messageRecordsToHistory [.user (.str "")] = [] ∧
    messageRecordsToHistory [.gemini .nullv none] = [] := by
  refine ⟨?_, ?_, ?_⟩
  · exact history_turn_parts_nonempty.1 [.user (.str "x")] _ (by
      rw [messageRecordsToHistory_cons]
      simp [msgToContents, normalizeParts, JSVal.truthy, messageRecordsToHistory])
  · exact history_turn_parts_nonempty.2.1 (.str "") rfl
  · exact history_turn_parts_nonempty.2.2 .nullv none (Or.inl rfl) rfl

/-- C6: `messageRecordsToHistory` drops every info, warning and error entry,
and applied to one user message plus one model message with zero tool calls
(whose contents normalize to at least one part) it yields exactly two turns,
a user-role turn then a model-role turn, with no response turn. -/
theorem history_drops_annotations_two_turns :
    (∀ (c : JSVal) (ms : List MessageRecord),
       messageRecordsToHistory (.info c :: ms) = messageRecordsToHistory ms ∧
       messageRecordsToHistory (.error c :: ms) = messageRecordsToHistory ms ∧
       messageRecordsToHistory (.warning c :: ms) = messageRecordsToHistory ms) ∧
    (∀ (uc gc : JSVal) (tcs : Option (List ToolCallRecord)),
       (tcs = none ∨ tcs = some []) →
       normalizeParts uc ≠ [] → normalizeParts gc ≠ [] →
       messageRecordsToHistory [.user uc, .gemini gc tcs] =
         [⟨.user, normalizeParts uc⟩, ⟨.model, normalizeParts gc⟩]) := by
  constructor
  · intro c ms
    refine ⟨?_, ?_, ?_⟩ <;>
      (rw [messageRecordsToHistory_cons]; simp [msgToContents])
  · intro uc gc tcs htcs hu hg
    rw [messageRecordsToHistory_cons, messageRecordsToHistory_cons]
    have hue : (normalizeParts uc).isEmpty = false := by
      simpa [List.isEmpty_iff] using hu
    have hge : (normalizeParts gc).isEmpty = false := by
      simpa [List.isEmpty_iff] using hg
    rcases htcs with rfl | rfl <;>
      simp [msgToContents, hue, hge, messageRecordsToHistory]

theorem history_drops_annotations_two_turns_witness :
    messageRecordsToHistory [.user (.str "hi"), .gemini (.str "ok") none] =
      [⟨.user, [JSVal.textPart "hi"]⟩, ⟨.model, [JSVal.textPart "ok"]⟩] := by
  have h := history_drops_annotations_two_turns.2 (.str "hi") (.str "ok") none
    (Or.inl rfl)
    (by simp [normalizeParts, JSVal.truthy])
    (by simp [normalizeParts, JSVal.truthy])
  simpa [normalizeParts, JSVal.truthy] using h

/-- C7: for a model entry, every tool call with a non-null result contributes
its normalized result parts to one single user-role turn placed immediately
after the model turn (everything before it is model-role), and if no tool
call carries a non-null result, no user-role response turn is emitted at
all. -/
theorem gemini_entry_response_turn (gc : JSVal) (tcs : List ToolCallRecord) :
    (tcs.any (fun tc => !tc.result.isNull) = true →
     responsePartsOf tcs ≠ [] →
     ∃ pre, messageRecordsToHistory [.gemini gc (some tcs)] =
         pre ++ [⟨.user, responsePartsOf tcs⟩] ∧
       ∀ c ∈ pre, c.role = .model) ∧
    ((∀ tc ∈ tcs, tc.result.isNull = true) →
     ∀ c ∈ messageRecordsToHistory [.gemini gc (some tcs)], c.role = .model) := by
  constructor
  · intro hany hne
    rw [messageRecordsToHistory_cons]
    have hre : (responsePartsOf tcs).isEmpty = false := by
      simpa [List.isEmpty_iff] using hne
    simp only [msgToContents, hany, if_pos, messageRecordsToHistory,
      List.foldl_nil, List.append_nil, Option.getD_some, hre,
      Bool.false_eq_true, if_false]
    refine ⟨if (normalizeParts gc ++ tcs.map toolCallPart).isEmpty then []
      else [⟨.model, normalizeParts gc ++ tcs.map toolCallPart⟩], ?_, ?_⟩
    · simp
    · intro c hc
      split at hc
      · simp at hc
      · simp only [List.mem_singleton] at hc
        subst hc; rfl
  · intro hall c hc
    rw [messageRecordsToHistory_cons] at hc
    have hany : tcs.any (fun tc => !tc.result.isNull) = false := by
      simp only [List.any_eq_false]
      intro tc htc
      simp [hall tc htc]
    simp only [msgToContents, hany, messageRecordsToHistory, List.foldl_nil,
      List.append_nil, Bool.false_eq_true, if_false] at hc
    split at hc
    · simp at hc
    · simp only [List.mem_singleton] at hc
      subst hc; rfl

theorem gemini_entry_response_turn_witness :
    (∃ pre,
       messageRecordsToHistory
           [.gemini (.str "ok") (some [⟨"1", "t", "a", .str "r"⟩])] =
         pre ++ [⟨.user, responsePartsOf [⟨"1", "t", "a", .str "r"⟩]⟩] ∧
       ∀ c ∈ pre, c.role = .model) ∧
    (∀ c ∈ messageRecordsToHistory
        [.gemini (.str "ok") (some [⟨"1", "t", "a", .nullv⟩])],
       c.role = .model) := by
  constructor
  · exact (gemini_entry_response_turn (.str "ok") [⟨"1", "t", "a", .str "r"⟩]).1
      (by simp [JSVal.isNull])
      (by simp [responsePartsOf, JSVal.isNull, normalizeParts, JSVal.truthy])
  · exact (gemini_entry_response_turn (.str "ok") [⟨"1", "t", "a", .nullv⟩]).2
      (by intro tc htc; simp only [List.mem_singleton] at htc; subst htc; rfl)

/-! ## Re-encoding reconstructed history into the persisted schema

The repository only reads persisted records; the writer lives in the backend
collaborator. The encoder below is therefore not a translation of source
code. -/

/-- Modelled from the spec: the inverse direction of section 4.4 is absent
from the sources (the backend owns session persistence), so we encode a
reconstructed turn back into the persisted record schema of section 3 the
way the spec describes entries: a user-role turn becomes a user entry whose
content is the ordered sequence of its parts, and a model-role turn becomes
a model entry whose content is the ordered sequence of its parts (text and
function-call parts alike), with no separate tool-call records. -/
def encodeContent (c : Content) : MessageRecord :=
  match c.role with
  | .user => .user (.arr c.parts)
  | .model => .gemini (.arr c.parts) none

/-- Modelled from the spec: re-encode a whole reconstructed turn sequence
into a persisted message sequence, one entry per turn. -/
def encodeHistory (h : List Content) : List MessageRecord :=
  h.map encodeContent

/-- Normalizing an array whose elements are never bare strings returns it
unchanged. -/
theorem normalizeParts_arr_of_no_str (parts : List JSVal)
    (h : ∀ p ∈ parts, p.isStr = false) :
    normalizeParts (.arr parts) = parts := by
  show parts.map (fun item =>
      match item with
      | .str s => JSVal.textPart s
      | x => x) = parts
  induction parts with
  | nil => rfl
  | cons p ps ih =>
      have hp : p.isStr = false := h p (List.mem_cons_self p ps)
      have hps : ∀ q ∈ ps, q.isStr = false := fun q hq => h q (List.mem_cons_of_mem p hq)
      simp only [List.map_cons, ih hps]
      cases p with
      | str s => simp [JSVal.isStr] at hp
      | nullv => rfl
      | arr l => rfl
      | obj n => rfl
      | textPart s => rfl
      | funcCallPart i n a => rfl

/-- Re-encoding one well-formed turn and reconstructing recovers exactly that
turn. -/
theorem msgToContents_encodeContent (c : Content) (hne : c.parts ≠ [])
    (hns : ∀ p ∈ c.parts, p.isStr = false) :
    msgToContents (encodeContent c) = [c] := by
  have harr : normalizeParts (.arr c.parts) = c.parts :=
    normalizeParts_arr_of_no_str c.parts hns
  have hemp : c.parts.isEmpty = false := by
    simpa [List.isEmpty_iff] using hne
  cases h : c.role with
  | user =>
      simp only [encodeContent, h, msgToContents, harr, hemp,
        Bool.false_eq_true, if_false]
      cases c; simp_all
  | model =>
      simp only [encodeContent, h, msgToContents, harr, List.append_nil,
        hemp, Bool.false_eq_true, if_false]
      cases c; simp_all

/-- C9: re-encoding the reconstructed history into the persisted schema and
reconstructing again yields the same turn sequence (the info, warning and
error entries having already been dropped by the first reconstruction). -/
theorem reconstruct_reencode_idempotent (msgs : List MessageRecord) :
    messageRecordsToHistory (encodeHistory (messageRecordsToHistory msgs)) =
      messageRecordsToHistory msgs := by
  have key : ∀ h : List Content,
      (∀ c ∈ h, c.parts ≠ [] ∧ ∀ p ∈ c.parts, p.isStr = false) →
      messageRecordsToHistory (encodeHistory h) = h := by
    intro h hgood
    induction h with
    | nil => rfl
    | cons c cs ih =>
        have hc := hgood c (List.mem_cons_self c cs)
        have hcs : ∀ d ∈ cs, d.parts ≠ [] ∧ ∀ p ∈ d.parts, p.isStr = false :=
          fun d hd => hgood d (List.mem_cons_of_mem c hd)
        show messageRecordsToHistory (encodeContent c :: encodeHistory cs) = c :: cs
        rw [messageRecordsToHistory_cons, ih hcs,
          msgToContents_encodeContent c hc.1 hc.2]
        rfl
  refine key (messageRecordsToHistory msgs) ?_
  intro c hc
  rw [messageRecordsToHistory_eq_flatMap] at hc
  simp only [List.mem_flatMap] at hc
  obtain ⟨m, _, hm⟩ := hc
  exact ⟨parts_ne_nil_of_mem_msgToContents m c hm,
    parts_no_str_of_mem_msgToContents m c hm⟩

/-! ## Session listing (src/session.ts `listSessions`)

The filesystem is modelled by passing the directory listing explicitly: one
`SessionFile` per file, whose `decoded` field is `some record` when reading
and JSON-decoding succeed and `none` when they throw (the catch branch that
skips corrupted files). The `sort((a, b) => b.localeCompare(a))` call is
modelled as a stable descending sort on the file name. -/

/-- The fields of a persisted `ConversationRecord` that `listSessions` and
`messageRecordsToHistory` read. -/
structure ConversationRecord where
  sessionId : String
  startTime : String
  lastUpdated : String
  messages : List MessageRecord
  summary : Option String

/-- The summary returned per session by `listSessions`. -/
structure SessionInfo where
  sessionId : String
  filePath : String
  startTime : String
  lastUpdated : String
  messageCount : Nat
  summary : Option String
deriving DecidableEq

/-- One directory entry: file name plus the decode outcome of its content. -/
structure SessionFile where
  name : String
  decoded : Option ConversationRecord

/-- Whether `p` is an initial run of `s` (character-level model of
`String.startsWith`). -/
def startsWithChars : List Char → List Char → Bool
  | [], _ => true
  | _ :: _, [] => false
  | a :: as, b :: bs => a == b && startsWithChars as bs

/-- Whether `suf` is a final run of `s` (character-level model of
`String.endsWith`). -/
def endsWithChars (suf s : List Char) : Bool :=
  startsWithChars suf.reverse s.reverse

/-- The filename filter: `f.startsWith(SESSION_FILE_PREFIX) && f.endsWith(".json")`
(the fixed leading marker `pfx` is supplied by the core package). -/
def isSessionFileName (pfx name : String) : Bool :=
  startsWithChars pfx.data name.data && endsWithChars ".json".data name.data

/-- Stable descending insertion by file name (names compared as character
sequences). -/
def insertByNameDesc (f : SessionFile) : List SessionFile → List SessionFile
  | [] => [f]
  | g :: gs => if f.name.data < g.name.data then g :: insertByNameDesc f gs
               else f :: g :: gs

/-- Stable descending sort by file name, modelling
`sort((a, b) => b.localeCompare(a))` — newest first. -/
def sortByNameDesc : List SessionFile → List SessionFile
  | [] => []
  | f :: fs => insertByNameDesc f (sortByNameDesc fs)

/-- The `SessionInfo` built from one successfully decoded record. -/
def sessionInfoOf (dir : String) (f : SessionFile) (conv : ConversationRecord) :
    SessionInfo :=
  ⟨conv.sessionId, dir ++ "/" ++ f.name, conv.startTime, conv.lastUpdated,
   conv.messages.length, conv.summary⟩

/-- src/session.ts `listSessions`: filter to session files, sort newest
first, then decode each file, pushing a summary on success and skipping the
file on failure. -/
def listSessions (pfx dir : String) (files : List SessionFile) :
    List SessionInfo :=
  let sessionFiles :=
    sortByNameDesc (files.filter (fun f => isSessionFileName pfx f.name))
  sessionFiles.foldl (fun acc f =>
    match f.decoded with
    | some conv => acc ++ [sessionInfoOf dir f conv]
    | none => acc) []

theorem listSessions_foldl_filterMap (dir : String) (l : List SessionFile)
    (acc : List SessionInfo) :
    l.foldl (fun acc f =>
        match f.decoded with
        | some conv => acc ++ [sessionInfoOf dir f conv]
        | none => acc) acc
      = acc ++ l.filterMap (fun f => f.decoded.map (sessionInfoOf dir f)) := by
  induction l generalizing acc with
  | nil => simp
  | cons f fs ih =>
      cases hd : f.decoded with
      | none => simp [List.foldl_cons, hd, ih, List.filterMap_cons]
      | some conv => simp [List.foldl_cons, hd, ih, List.filterMap_cons]

theorem mem_insertByNameDesc (f x : SessionFile) (l : List SessionFile)
    (hx : x ∈ insertByNameDesc f l) : x = f ∨ x ∈ l := by
  induction l with
  | nil => simpa [insertByNameDesc] using hx
  | cons g gs ih =>
      simp only [insertByNameDesc] at hx
      split at hx
      · rcases List.mem_cons.mp hx with h | h
        · exact Or.inr (List.mem_cons.mpr (Or.inl h))
        · rcases ih h with h2 | h2
          · exact Or.inl h2
          · exact Or.inr (List.mem_cons.mpr (Or.inr h2))
      · rcases List.mem_cons.mp hx with h | h
        · exact Or.inl h
        · exact Or.inr h

theorem pairwise_insertByNameDesc (f : SessionFile) (l : List SessionFile)
    (hl : l.Pairwise (fun a b => ¬ a.name.data < b.name.data)) :
    (insertByNameDesc f l).Pairwise (fun a b => ¬ a.name.data < b.name.data) := by
  induction l with
  | nil => simp [insertByNameDesc]
  | cons g gs ih =>
      rcases List.pairwise_cons.mp hl with ⟨hg, hgs⟩
      simp only [insertByNameDesc]
      split
      · next hlt =>
          refine List.pairwise_cons.mpr ⟨?_, ih hgs⟩
          intro x hx
          rcases mem_insertByNameDesc f x gs hx with rfl | hmem
          · exact lt_asymm hlt
          · exact hg x hmem
      · next hnlt =>
          refine List.pairwise_cons.mpr ⟨?_, hl⟩
          intro x hx
          rcases List.mem_cons.mp hx with rfl | hmem
          · exact hnlt
          · intro habs
            have h1 : x.name.data ≤ g.name.data := le_of_not_lt (hg x hmem)
            have h2 : g.name.data ≤ f.name.data := le_of_not_lt hnlt
            exact absurd (lt_of_lt_of_le habs (h1.trans h2)) (lt_irrefl _)

theorem pairwise_sortByNameDesc (l : List SessionFile) :
    (sortByNameDesc l).Pairwise (fun a b => ¬ a.name.data < b.name.data) := by
  induction l with
  | nil => simp [sortByNameDesc]
  | cons f fs ih => exact pairwise_insertByNameDesc f (sortByNameDesc fs) ih

/-- C8: `listSessions` returns one `SessionInfo` per session-record file
that decodes successfully, taken from the eligible files sorted newest first
by filename (descending order), skipping every file that fails to decode;
in particular one well-formed file plus one corrupt file yield exactly one
`SessionInfo`, and two well-formed files yield both, newest first. -/
theorem listSessions_spec :
    (∀ (pfx dir : String) (files : List SessionFile),
       listSessions pfx dir files =
         (sortByNameDesc
             (files.filter (fun f => isSessionFileName pfx f.name))).filterMap
           (fun f => f.decoded.map (sessionInfoOf dir f))) ∧
    (∀ l : List SessionFile,
       (sortByNameDesc l).Pairwise (fun a b => ¬ a.name.data < b.name.data)) ∧
    (listSessions "session-" "chats"
        [⟨"session-1.json", some ⟨"A", "t0", "t1", [], none⟩⟩,
         ⟨"session-2.json", none⟩] =
      [⟨"A", "chats/session-1.json", "t0", "t1", 0, none⟩]) ∧
    (listSessions "session-" "chats"
        [⟨"session-1.json", some ⟨"A", "t0", "t1", [], none⟩⟩,
         ⟨"session-2.json", some ⟨"B", "t2", "t3", [], none⟩⟩] =
      [⟨"B", "chats/session-2.json", "t2", "t3", 0, none⟩,
       ⟨"A", "chats/session-1.json", "t0", "t1", 0, none⟩]) := by
  refine ⟨?_, pairwise_sortByNameDesc, ?_, ?_⟩
  · intro pfx dir files
    simpa [listSessions] using
      listSessions_foldl_filterMap dir
        (sortByNameDesc (files.filter (fun f => isSessionFileName pfx f.name))) []
  · decide
  · decide

/-! ## Tool invocation (src/tool.ts `SdkToolInvocation.execute`)

A thrown JavaScript value is either a `ToolError` (the designated tool-error
class, which extends `Error`), some other `Error`, or a non-Error value; its
model-visible message is `error.message` for the first two and
`String(error)` for the last. -/

/-- A value thrown by a tool action. -/
inductive Thrown where
  | toolErr : String → Thrown
  | jsErr : String → Thrown
  | nonErrValue : String → Thrown
deriving DecidableEq

/-- `error instanceof Error ? error.message : String(error)`. -/
def Thrown.message : Thrown → String
  | .toolErr m => m
  | .jsErr m => m
  | .nonErrValue s => s

/-- `error instanceof ToolError`. -/
def Thrown.isToolErr : Thrown → Bool
  | .toolErr _ => true
  | _ => false

/-- A value returned by a tool action: a string passes through `serialize`
verbatim; any other value is rendered as JSON text (the rendering itself is
opaque here, carried as the produced string). -/
inductive ActionValue where
  | str : String → ActionValue
  | jsonOther : String → ActionValue
deriving DecidableEq

/-- src/tool.ts `serialize`:
`typeof value === "string" ? value : JSON.stringify(value, null, 2)`. -/
def serialize : ActionValue → String
  | .str s => s
  | .jsonOther rendered => rendered

/-- The outcome of awaiting the tool action: a value, or a thrown error. -/
inductive ActionOutcome where
  | ok : ActionValue → ActionOutcome
  | threw : Thrown → ActionOutcome

/-- The `ToolResult` built by `execute`: model-visible content, display
content, and the optional error field `\x7bmessage\x7d`. -/
structure ToolResult where
  llmContent : String
  returnDisplay : String
  errorMessage : Option String
deriving DecidableEq

/-- src/tool.ts `SdkToolInvocation.execute`: a successful action yields a
result with the serialized value; a thrown error is converted into an
error-flagged result when `sendErrorsToModel` is set or the error is a
`ToolError`, and re-raised otherwise. -/
def executeInvocation (sendErrorsToModel : Bool) (outcome : ActionOutcome) :
    Except Thrown ToolResult :=
  match outcome with
  | .ok v => .ok ⟨serialize v, serialize v, none⟩
  | .threw e =>
      if sendErrorsToModel || e.isToolErr then
        .ok ⟨"Error: " ++ e.message, "Error: " ++ e.message, some e.message⟩
      else
        .error e

/-- C3: when a tool action throws, the execution returns a normal tool
result — model-visible and display content both the message prefixed with
"Error: ", with the error field set — exactly when `sendErrorsToModel` is
true or the thrown value is a `ToolError`; every other thrown error is
re-raised. -/
theorem execute_error_conversion (flag : Bool) (e : Thrown) :
    ((flag = true ∨ e.isToolErr = true) →
       executeInvocation flag (.threw e) =
         .ok ⟨"Error: " ++ e.message, "Error: " ++ e.message, some e.message⟩) ∧
    (flag = false → e.isToolErr = false →
       executeInvocation flag (.threw e) = .error e) := by
  constructor
  · intro h
    rcases h with rfl | h
    · rfl
    · simp [executeInvocation, h]
  · intro hf ht
    simp [executeInvocation, hf, ht]

theorem execute_error_conversion_witness :
    executeInvocation true (.threw (.jsErr "boom")) =
        .ok ⟨"Error: boom", "Error: boom", some "boom"⟩ ∧
    executeInvocation false (.threw (.toolErr "soft")) =
        .ok ⟨"Error: soft", "Error: soft", some "soft"⟩ ∧
    executeInvocation false (.threw (.jsErr "hard")) =
        .error (.jsErr "hard") := by
  refine ⟨?_, ?_, ?_⟩
  · exact (execute_error_conversion true (.jsErr "boom")).1 (Or.inl rfl)
  · exact (execute_error_conversion false (.toolErr "soft")).1 (Or.inr rfl)
  · exact (execute_error_conversion false (.jsErr "hard")).2 rfl rfl

/-! ## Local sub-agent execution (src/subagent.ts `executeLocalAgent`)

The nested executor is an external collaborator; its run outcome is a
termination reason plus a result string. `AgentTerminateMode` models the
enum of the core package (only `GOAL` is distinguished by the code under
src/; the code of the other reasons is the string interpolated into the
error message). -/

inductive AgentTerminateMode where
  | GOAL : AgentTerminateMode
  | MAX_TURNS : AgentTerminateMode
  | TIMEOUT : AgentTerminateMode
  | ERROR : AgentTerminateMode
  | ABORTED : AgentTerminateMode
deriving DecidableEq

/-- The string value of the enum member (what `${result.terminate_reason}`
interpolates). -/
def AgentTerminateMode.code : AgentTerminateMode → String
  | .GOAL => "goal"
  | .MAX_TURNS => "max_turns"
  | .TIMEOUT => "timeout"
  | .ERROR => "error"
  | .ABORTED => "aborted"

/-- The outcome of `executor.run`: termination reason and result string. -/
structure SubagentRunOutcome where
  terminate_reason : AgentTerminateMode
  result : String

/-- src/subagent.ts `executeLocalAgent`, the part after the run settles:
a non-GOAL termination reason throws a `ToolError` naming the sub-agent and
the reason; GOAL returns the run result string. -/
def executeLocalAgent (name : String) (run : SubagentRunOutcome) :
    Except Thrown String :=
  if run.terminate_reason ≠ .GOAL then
    .error (.toolErr
      ("Sub-agent \"" ++ name ++ "\" terminated: " ++ run.terminate_reason.code))
  else
    .ok run.result

/-- C4: the wrapped local sub-agent action returns the run result string
exactly when the run terminated with the GOAL reason; every other reason
yields a thrown `ToolError` whose message contains the sub-agent name and
the termination reason code, never a successful string. -/
theorem local_agent_goal_or_tool_error (name : String)
    (run : SubagentRunOutcome) :
    (∀ s : String, executeLocalAgent name run = .ok s ↔
       (run.terminate_reason = .GOAL ∧ s = run.result)) ∧
    (run.terminate_reason ≠ .GOAL →
       ∃ msg, executeLocalAgent name run = .error (.toolErr msg) ∧
         (∃ p q, msg = p ++ name ++ q) ∧
         (∃ r, msg = r ++ run.terminate_reason.code)) := by
  constructor
  · intro s
    by_cases h : run.terminate_reason = .GOAL
    · simp [executeLocalAgent, h, eq_comm]
    · simp [executeLocalAgent, h]
  · intro h
    refine ⟨"Sub-agent \"" ++ name ++ "\" terminated: " ++
      run.terminate_reason.code, ?_, ?_, ?_⟩
    · simp [executeLocalAgent, h]
    · exact ⟨"Sub-agent \"", "\" terminated: " ++ run.terminate_reason.code,
        by simp [String.append_assoc]⟩
    · exact ⟨"Sub-agent \"" ++ name ++ "\" terminated: ", rfl⟩

theorem local_agent_goal_or_tool_error_witness :
    executeLocalAgent "researcher" ⟨.GOAL, "done"⟩ = .ok "done" ∧
    (∃ msg, executeLocalAgent "researcher" ⟨.MAX_TURNS, "partial"⟩ =
        .error (.toolErr msg) ∧
      (∃ p q, msg = p ++ "researcher" ++ q) ∧
      (∃ r, msg = r ++ AgentTerminateMode.MAX_TURNS.code)) := by
  constructor
  · exact ((local_agent_goal_or_tool_error "researcher" ⟨.GOAL, "done"⟩).1
      "done").mpr ⟨rfl, rfl⟩
  · exact (local_agent_goal_or_tool_error "researcher"
      ⟨.MAX_TURNS, "partial"⟩).2 (by decide)

/-! ## Remote sub-agent text extraction (src/subagent.ts)

An A2A content part either is text-kind (carrying a string) or some other
kind (file, data), modelled opaquely. A send result is either a direct
message with a part list, or a task whose `status?.message?.parts` chain may
be absent (`none`); note that a present but empty part list is `some []`,
since an empty array is truthy in JavaScript. -/

inductive A2APart where
  | text : String → A2APart
  | otherKind : Nat → A2APart
deriving DecidableEq

/-- `p.kind === "text"`. -/
def A2APart.isText : A2APart → Bool
  | .text _ => true
  | _ => false

/-- The text payload of a text-kind part. -/
def A2APart.textOf : A2APart → Option String
  | .text s => some s
  | _ => none

/-- A `Message | Task` result of the blocking send. -/
inductive A2AResult where
  | message : List A2APart → A2AResult
  | task : Option (List A2APart) → A2AResult

/-- src/subagent.ts `extractTextFromParts`: keep the text-kind parts, take
their text, join with newlines (`join("\n")` of the empty list is ""). -/
def extractTextFromParts (parts : List A2APart) : String :=
  String.intercalate "\n"
    ((parts.filter A2APart.isText).map (fun p =>
      match p with
      | .text s => s
      | _ => ""))

/-- src/subagent.ts `extractTextFromResult`: a message uses its own parts;
a task uses `status?.message?.parts` when the chain is present and yields ""
when it is absent. -/
def extractTextFromResult : A2AResult → String
  | .message parts => extractTextFromParts parts
  | .task (some parts) => extractTextFromParts parts
  | .task none => ""

/-- The part list the extraction reads: the message parts, or the task
status-message parts when present (absence reads as no parts). -/
def relevantParts : A2AResult → List A2APart
  | .message parts => parts
  | .task o => o.getD []

theorem filter_map_text_eq_filterMap (parts : List A2APart) :
    (parts.filter A2APart.isText).map (fun p =>
        match p with
        | .text s => s
        | _ => "") = parts.filterMap A2APart.textOf := by
  induction parts with
  | nil => rfl
  | cons p ps ih =>
      cases p with
      | text s => simp [List.filter_cons, List.filterMap_cons, A2APart.isText,
          A2APart.textOf, ih]
      | otherKind n => simp [List.filter_cons, List.filterMap_cons,
          A2APart.isText, A2APart.textOf, ih]

/-- C5: for every remote response, the tool result is the newline-joined
concatenation of the text of every text-kind part of the relevant part list,
and when no text-bearing part is present (including a task without status
message parts) the result is the empty string — the extraction never
fails. -/
theorem remote_result_text_extraction (r : A2AResult) :
    extractTextFromResult r =
        String.intercalate "\n" ((relevantParts r).filterMap A2APart.textOf) ∧
    ((∀ p ∈ relevantParts r, p.textOf = none) →
       extractTextFromResult r = "") := by
  have hbase : ∀ parts : List A2APart,
      extractTextFromParts parts =
        String.intercalate "\n" (parts.filterMap A2APart.textOf) := by
    intro parts
    unfold extractTextFromParts
    rw [filter_map_text_eq_filterMap]
  have hmain : extractTextFromResult r =
      String.intercalate "\n" ((relevantParts r).filterMap A2APart.textOf) := by
    cases r with
    | message parts => exact hbase parts
    | task o =>
        cases o with
        | none => rfl
        | some parts => exact hbase parts
  refine ⟨hmain, fun hno => ?_⟩
  have hempty : (relevantParts r).filterMap A2APart.textOf = [] := by
    simp only [List.filterMap_eq_nil_iff]
    exact hno
  rw [hmain, hempty]
  rfl

theorem remote_result_text_extraction_witness :
    extractTextFromResult (.message [.text "a", .otherKind 0, .text "b"]) =
        String.intercalate "\n"
          ((relevantParts (.message [.text "a", .otherKind 0, .text "b"])).filterMap
            A2APart.textOf) ∧
    extractTextFromResult (.task (some [.otherKind 3])) = "" ∧
    extractTextFromResult (.task none) = "" := by
  refine ⟨?_, ?_, ?_⟩
  · exact (remote_result_text_extraction
      (.message [.text "a", .otherKind 0, .text "b"])).1
  · exact (remote_result_text_extraction (.task (some [.otherKind 3]))).2
      (by decide)
  · exact (remote_result_text_extraction (.task none)).2 (by decide)

/-! ## Turn loop: next-round input from tool completions (src/agent.ts)

After a round of tool execution, `sendStream` builds the next-round request
as `completedCalls.flatMap((call) => call.response.responseParts)`: each
completion returned by the external scheduler carries a list of response
parts, and the lists are concatenated in completion order (which the
scheduler contract keeps equal to request order). The part type is left
abstract. -/

/-- One completed tool call as returned by the scheduler: the response parts
to feed back (`call.response.responseParts`). -/
structure Completion (α : Type) where
  responseParts : List α

/-- The next-round request built from the completed calls
(src/agent.ts: `completedCalls.flatMap((call) => call.response.responseParts)`). -/
def nextRoundRequest {α : Type} (completedCalls : List (Completion α)) :
    List α :=
  completedCalls.flatMap Completion.responseParts

/-- C1 counterexample: one completion carrying two response parts makes the
next-round input hold two parts, not one per completion. -/
theorem next_round_parts_count_counterexample :
    ¬ ((nextRoundRequest [Completion.mk [0, 1]]).length
        = ([Completion.mk [0, 1]] : List (Completion Nat)).length) := by
  decide

/-- C1 amended: the next-round input is the concatenation, in completion
(request) order, of each completion's response-part list; its size is the
total number of response parts over all completions, which equals the number
of completions exactly when every completion carries a single response
part. -/
theorem next_round_request_parts {α : Type} (cs : List (Completion α)) :
    (nextRoundRequest cs).length
        = (cs.map (fun c => c.responseParts.length)).sum ∧
    ((∀ c ∈ cs, c.responseParts.length = 1) →
       (nextRoundRequest cs).length = cs.length) ∧
    (∀ ds : List (Completion α),
       nextRoundRequest (cs ++ ds) = nextRoundRequest cs ++ nextRoundRequest ds) := by
  refine ⟨?_, ?_, ?_⟩
  · induction cs with
    | nil => rfl
    | cons c cs ih =>
        have hcons : nextRoundRequest (c :: cs)
            = c.responseParts ++ nextRoundRequest cs := by
          simp [nextRoundRequest, List.flatMap_cons]
        rw [hcons, List.length_append, ih, List.map_cons, List.sum_cons]
  · intro h
    induction cs with
    | nil => rfl
    | cons c cs ih =>
        have hc := h c (List.mem_cons_self c cs)
        have ih2 := ih (fun d hd => h d (List.mem_cons_of_mem c hd))
        have hcons : nextRoundRequest (c :: cs)
            = c.responseParts ++ nextRoundRequest cs := by
          simp [nextRoundRequest, List.flatMap_cons]
        rw [hcons, List.length_append, hc, ih2, List.length_cons]
        omega
  · intro ds
    simp [nextRoundRequest]

theorem next_round_request_parts_witness :
    (nextRoundRequest [Completion.mk [7], Completion.mk [8]]).length
      = ([Completion.mk [7], Completion.mk [8]] : List (Completion Nat)).length := by
  exact (next_round_request_parts
    [Completion.mk [7], Completion.mk [8]]).2.1 (by decide)

/-! ## Turn loop: one-time instruction resolution (src/agent.ts)

`sendStream` checks `instructionsLoaded` once, before its streaming loop,
and `resolveInstructions` returns without any effect when the instructions
are a literal string; when they are a function it invokes them, installs the
result and sets `instructionsLoaded`. The streaming loop body (stream,
extract tool calls, schedule, rebuild request) neither calls
`resolveInstructions` nor writes `instructionsLoaded`, so on the
instruction-resolution state each loop round is the identity. The state
tracks the flag together with how often the instructions function has been
invoked. -/

structure InstrState where
  instructionsLoaded : Bool
  resolveCount : Nat
deriving DecidableEq

/-- src/agent.ts `resolveInstructions`: a string is left alone; a function
is invoked (counted) and `instructionsLoaded` is set. -/
def resolveInstructions (isFunc : Bool) (st : InstrState) : InstrState :=
  if !isFunc then st
  else ⟨true, st.resolveCount + 1⟩

/-- The effect of one round of the streaming loop on the resolution state:
none (the loop body never touches it). -/
def loopRounds : Nat → InstrState → InstrState
  | 0, st => st
  | n + 1, st => loopRounds n st

/-- src/agent.ts `sendStream`, restricted to the resolution state: resolve
once if not yet loaded, then run the sub-loop rounds. -/
def sendStreamInstr (isFunc : Bool) (rounds : Nat) (st : InstrState) :
    InstrState :=
  loopRounds rounds
    (if !st.instructionsLoaded then resolveInstructions isFunc st else st)

/-- The state of a freshly constructed agent. -/
def initialInstrState : InstrState := ⟨false, 0⟩

theorem loopRounds_id (n : Nat) (st : InstrState) : loopRounds n st = st := by
  induction n with
  | zero => rfl
  | succ n ih => exact ih

theorem sendStreamInstr_loaded (isFunc : Bool) (rounds : Nat) (c : Nat) :
    sendStreamInstr isFunc rounds ⟨true, c⟩ = ⟨true, c⟩ := by
  simp [sendStreamInstr, loopRounds_id]

/-- C2: instructions supplied as a function are resolved exactly once per
agent instance — on the first send, before its first streaming round — and
never again on later sends or sub-loop rounds: after any sequence of sends
(each with any number of loop rounds) the function has been invoked
`min sends 1` times, and already the first send alone leaves the state
loaded with one invocation. -/
theorem instructions_resolved_once :
    (∀ rounds : Nat,
       sendStreamInstr true rounds initialInstrState = ⟨true, 1⟩) ∧
    (∀ sends : List Nat,
       (sends.foldl (fun st r => sendStreamInstr true r st)
           initialInstrState).resolveCount = min sends.length 1) := by
  have hfirst : ∀ rounds : Nat,
      sendStreamInstr true rounds initialInstrState = ⟨true, 1⟩ := by
    intro rounds
    simp [sendStreamInstr, initialInstrState, resolveInstructions, loopRounds_id]
  have hstay : ∀ (l : List Nat) (c : Nat),
      l.foldl (fun st r => sendStreamInstr true r st) ⟨true, c⟩ = ⟨true, c⟩ := by
    intro l
    induction l with
    | nil => intro c; rfl
    | cons r rs ih =>
        intro c
        simp only [List.foldl_cons, sendStreamInstr_loaded]
        exact ih c
  refine ⟨hfirst, ?_⟩
  intro sends
  cases sends with
  | nil => rfl
  | cons r rs =>
      simp only [List.foldl_cons, hfirst r, hstay rs 1, List.length_cons]
      omega

end GeminiSdk
